import Mathlib

/-!
Verification of the cash-ledger / change-engine core of the Codeverse
vending-machine repository, shallowly embedded in Lean.

Python dicts `{denom: count}` are embedded as association lists
`List (Nat × Nat)` (or `List (Int × Int)` where signed arguments matter):
a real dict has pairwise distinct keys, which appears below as a
`(keys l).Nodup` hypothesis, and insertion order is preserved, with
`dget`/`dset` mirroring `d.get(k, 0)` and `d[k] = v`.
-/

namespace Codeverse

/-- A Python dict `{denom: count}` with Nat keys and values. -/
abbrev Dict := List (Nat × Nat)

/-- `dget l k` for dicts: Python `d.get(k, 0)`. -/
def dget : Dict → Nat → Nat
  | [], _ => 0
  | p :: rest, d => if p.1 = d then p.2 else dget rest d

/-- The key list of a dict. -/
def keys (l : Dict) : List Nat := l.map Prod.fst

/-- Replacement of the value stored at key `k` by `v`, in place. -/
def mapset (l : Dict) (k v : Nat) : Dict :=
  l.map (fun p => if p.1 = k then (k, v) else p)

/-- Python `d[k] = v`: replace the value at an existing key in place,
append `(k, v)` when the key is new (dict insertion-order semantics). -/
def dset (l : Dict) (k v : Nat) : Dict :=
  if k ∈ keys l then mapset l k v else l ++ [(k, v)]

/-- Python `sum(d * c for d, c in combo.items())`: the money value of a dict. -/
def dval (l : Dict) : Nat := (l.map (fun p => p.1 * p.2)).sum

/-- Python `sum(combo.values())`: the total piece count of a dict. -/
def dpieces (l : Dict) : Nat := (l.map Prod.snd).sum

/-- Python `d[k] = d.get(k, 0) + 1`. -/
def bump (l : Dict) (k : Nat) : Dict := dset l k (dget l k + 1)

/-- Python `d[k] = d.get(k, 0) - 1` (used to peel one piece off a combination
in the completeness/minimality argument). -/
def cdec (l : Dict) (k : Nat) : Dict := dset l k (dget l k - 1)

/-! ## The change engine of `src/VendingMachinePro.py`
`CashMgr._bounded_min_items_change` (lines 80-113): bounded
minimum-piece coin change by unit-by-unit dynamic programming. -/

/-- One execution of the inner-loop body (VendingMachinePro.py lines 102-111)
at sub-amount `a`: if `dp[a - denom]` is a known combination, propose it plus
one extra `denom` piece, and store the proposal when `dp[a]` is `None` or uses
strictly more pieces. -/
def dpBody (denom : Nat) (dp : Nat → Option Dict) (a : Nat) : Nat → Option Dict :=
  match dp (a - denom) with
  | none => dp
  | some prev =>
    let candidate := bump prev denom
    match dp a with
    | none => fun x => if x = a then some candidate else dp x
    | some cur =>
      if dpieces candidate < dpieces cur then
        fun x => if x = a then some candidate else dp x
      else dp

/-- Python `range(amt, denom - 1, -1)`: sub-amounts from `amt` down to `denom`. -/
def descRange (amt denom : Nat) : List Nat :=
  (List.range' denom (amt + 1 - denom)).reverse

/-- One unit pass: one iteration of `for _ in range(count)` in
`_bounded_min_items_change`, scanning sub-amounts downward. -/
def dpPass (amt denom : Nat) (dp : Nat → Option Dict) : Nat → Option Dict :=
  (descRange amt denom).foldl (dpBody denom) dp

/-- Python `sorted(available.keys())`. -/
def sortedKeys (available : Dict) : List Nat :=
  (keys available).insertionSort (· ≤ ·)

/-- `CashMgr._bounded_min_items_change` (VendingMachinePro.py lines 80-113).
The `dp` table is a function from sub-amount to optional combination;
`dp[0] = {}`, then each physical unit of each denomination (denominations in
ascending key order, counts clamped by `max 0`) is offered once via a
downward scan.  The `if amt < 0: return None` guard of the source cannot
fire at type `Nat`. -/
def boundedMinItemsChange (amt : Nat) (available : Dict) : Option Dict :=
  if amt = 0 then some []
  else
    let dp0 : Nat → Option Dict := fun a => if a = 0 then some [] else none
    let dpF := (sortedKeys available).foldl
      (fun dp denom => (dpPass amt denom)^[max 0 (dget available denom)] dp) dp0
    dpF amt

/-- The effect of one inner-loop execution at index `a`, written against the
pre-scan table: because the scan walks indices strictly downward and
`denom ≥ 1`, both reads `dp[a]` and `dp[a - denom]` still see pre-scan
values. -/
def relax (dp : Nat → Option Dict) (denom a : Nat) : Option Dict :=
  match dp (a - denom), dp a with
  | none, cur => cur
  | some prev, none => some (bump prev denom)
  | some prev, some cur =>
    if dpieces (bump prev denom) < dpieces cur then some (bump prev denom) else cur

/-! ## Correctness invariant of the DP table -/

/-- Every entry of `c` stays within the supply `proc`. -/
def WithinSupply (c : Dict) (proc : Nat → Nat) : Prop := ∀ d, dget c d ≤ proc d

/-- The DP-table invariant over a processed supply `proc`:
(sound) every stored combination sums exactly to its index, has dict-shaped
keys and stays within supply; (complete and minimal) every within-supply
combination for an index `a ≤ amt` is dominated piece-wise by a stored one. -/
def DPInv (amt : Nat) (proc : Nat → Nat) (dp : Nat → Option Dict) : Prop :=
  (∀ a, a ≤ amt → ∀ c, dp a = some c →
    dval c = a ∧ (keys c).Nodup ∧ WithinSupply c proc) ∧
  (∀ a, a ≤ amt → ∀ c', (keys c').Nodup → dval c' = a → WithinSupply c' proc →
    ∃ c, dp a = some c ∧ dpieces c ≤ dpieces c')

/-- Supply after offering `k` more physical units of denomination `d`. -/
def addCnt (proc : Nat → Nat) (d k : Nat) : Nat → Nat :=
  fun x => if x = d then proc x + k else proc x

namespace Pro

def COINS : List Nat := [1, 2, 5, 10]

def NOTES : List Nat := [20, 50, 100, 500, 1000]

def DENOMINATIONS : List Nat := COINS ++ NOTES

/-- `CashMgr.add` (VendingMachinePro.py lines 54-58), on the purchase path
where the arguments are non-negative machine integers (`Nat`, where the
source guard `count >= 0` always holds); `addInt` below is the same method
at fully general `Int` arguments. -/
def add (denom count : Nat) (cash : Dict) : Dict :=
  if denom ∈ DENOMINATIONS ∧ 0 ≤ count then dset cash denom (dget cash denom + count)
  else cash

/-- `CashMgr.remove` (lines 60-68) at `Nat` arguments (the source guard
`count < 0` cannot fire); `none` models the raised `ValueError`. -/
def remove (denom count : Nat) (cash : Dict) : Option Dict :=
  if count > dget cash denom then none
  else some (dset cash denom (dget cash denom - count))

/-- `CashMgr.snapshot` (lines 70-73): `dict(self.cash)`, a by-value copy. -/
def snapshot (cash : Dict) : Dict := cash

/-- `CashMgr.restore` (lines 75-78): `self.cash = dict(snap)` replaces the
live mapping wholesale by the snapshot. -/
def restore (snap _cash : Dict) : Dict := snap

/-- `CashMgr.can_change` (lines 115-120); the `amt < 0` guard cannot fire
at type `Nat`. -/
def canChange (amt : Nat) (cash : Dict) : Bool :=
  (boundedMinItemsChange amt cash).isSome

/-- Committing a change combination: `for d, c in combo.items():
self.remove(d, c)` inside `CashMgr.make_change`; `none` marks the
`ValueError` that an over-large removal would raise. -/
def removeAll (cash : Dict) : Dict → Option Dict
  | [] => some cash
  | (d, c) :: rest =>
    match remove d c cash with
    | none => none
    | some cash' => removeAll cash' rest

/-- `CashMgr.make_change` (lines 122-132): compute the combination and
commit it immediately.  Inner `none` is the infeasible `return None`;
outer `none` marks an uncaught `ValueError` escaping from `remove`
(proved unreachable below). -/
def makeChange (amt : Nat) (cash : Dict) : Option (Option (Dict × Dict)) :=
  if amt = 0 then some (some ([], cash))
  else
    match boundedMinItemsChange amt cash with
    | none => some none
    | some combo =>
      match removeAll cash combo with
      | none => none
      | some cash' => some (some (combo, cash'))

end Pro

/-- One keyboard event during payment collection: `cancel` is the `'c'`
input, `num n` a string parsing as the integer `n`, `junk` any other text
(non-numeric input and negative numbers alike merely reprompt). -/
inductive Inp where
  | cancel : Inp
  | num : Nat → Inp
  | junk : Inp
deriving DecidableEq

namespace Pro

/-- `VendingMachine.collect_payment` (VendingMachinePro.py lines 352-377;
the same loop appears verbatim in VendingMachine.py lines 241-265 and
projectmidterm.py lines 246-282, whose `valid_money` is the same nine
denominations): accept denominations one at a time until the running total
reaches the price or the payer cancels.  `none`: the modelled input stream
ran out while the loop still blocks; `some none`: the `(None, None)`
cancellation return; `some (some (total, inserted))`: normal return. -/
def collectPayment (price total : Nat) (inserted : Dict) :
    List Inp → Option (Option (Nat × Dict))
  | [] => if price ≤ total then some (some (total, inserted)) else none
  | Inp.cancel :: _ =>
    if price ≤ total then some (some (total, inserted)) else some none
  | Inp.num n :: rest =>
    if price ≤ total then some (some (total, inserted))
    else if n ∈ DENOMINATIONS then collectPayment price (total + n) (bump inserted n) rest
    else collectPayment price total inserted rest
  | Inp.junk :: rest =>
    if price ≤ total then some (some (total, inserted))
    else collectPayment price total inserted rest

end Pro

/-- Possible outcomes of one modelled `process_purchase` run: `waiting`
when the input stream ran out while the interactive loop still blocks on
input, `exn` when an exception would escape the call, and
`ret ok stock cash` a normal return with value `ok` and the resulting
product stock and machine cash. -/
inductive PRes where
  | waiting : PRes
  | exn : PRes
  | ret : Bool → Nat → Dict → PRes
deriving DecidableEq

namespace Pro

/-- `Product.buy` (VendingMachinePro.py lines 31-37), acting on the stock. -/
def buyOne (stock : Nat) : Nat := if 0 < stock then stock - 1 else stock

/-- The tentative insert `for denom, count in inserted_money.items():
self.cash_mgr.add(denom, count)` (lines 325-326). -/
def addAll (cash inserted : Dict) : Dict :=
  inserted.foldl (fun c p => add p.1 p.2 c) cash

/-- `VendingMachine.process_purchase` (VendingMachinePro.py lines 304-350),
with the product represented by its `price` and `stock`.  The
`combo = []` test embeds the dict-falsiness test `not change_detail`
(`make_change` returning `None` became `{}` through `or {}`). -/
def processPurchase (price stock : Nat) (cash : Dict) (inputs : List Inp) : PRes :=
  if ¬ 0 < stock then PRes.ret false stock cash
  else
    match collectPayment price 0 [] inputs with
    | none => PRes.waiting
    | some none => PRes.ret false stock cash
    | some (some (total, inserted)) =>
      let changeAmount := total - price
      let snap := snapshot cash
      let cash1 := addAll cash inserted
      if 0 < changeAmount then
        match makeChange changeAmount cash1 with
        | none => PRes.exn
        | some none => PRes.ret false stock (restore snap cash1)
        | some (some (combo, cash2)) =>
          if combo = [] then PRes.ret false stock (restore snap cash1)
          else PRes.ret true (buyOne stock) cash2
      else PRes.ret true (buyOne stock) cash1

end Pro

/-! ## The ledger primitives at fully general `Int` arguments -/

/-- A Python dict with `Int` keys and values, for the ledger API taken at
arbitrary (possibly negative) arguments. -/
abbrev DictZ := List (Int × Int)

/-- `d.get(k, 0)` on an `Int` dict. -/
def zget : DictZ → Int → Int
  | [], _ => 0
  | p :: rest, d => if p.1 = d then p.2 else zget rest d

/-- The key list of an `Int` dict. -/
def zkeys (l : DictZ) : List Int := l.map Prod.fst

/-- In-place value replacement on an `Int` dict. -/
def zmapset (l : DictZ) (k v : Int) : DictZ :=
  l.map (fun p => if p.1 = k then (k, v) else p)

/-- `d[k] = v` on an `Int` dict. -/
def zset (l : DictZ) (k v : Int) : DictZ :=
  if k ∈ zkeys l then zmapset l k v else l ++ [(k, v)]

namespace Pro

/-- The nine legal denominations as `Int`s (`CashMgr.DENOMINATIONS`). -/
def DENOMINATIONSZ : List Int := [1, 2, 5, 10] ++ [20, 50, 100, 500, 1000]

/-- `CashMgr.add` (VendingMachinePro.py lines 54-58) at fully general
arguments: on a legal denomination and non-negative count the stored count
increases; otherwise the method silently does nothing — the source has no
raise path at all. -/
def addInt (denom count : Int) (cash : DictZ) : DictZ :=
  if denom ∈ DENOMINATIONSZ ∧ 0 ≤ count then
    zset cash denom (zget cash denom + count)
  else cash

/-- `CashMgr.remove` (lines 60-68) at fully general arguments; `none`
models the raised `ValueError` (negative count, or count beyond the stored
one).  Both checks precede the single mutating assignment in the source,
so a raise leaves the dict untouched. -/
def removeInt (denom count : Int) (cash : DictZ) : Option DictZ :=
  if count < 0 then none
  else if count > zget cash denom then none
  else some (zset cash denom (zget cash denom - count))

/-- One ledger API call. -/
inductive LOp where
  | add : Int → Int → LOp
  | remove : Int → Int → LOp

/-- Run one ledger call; a `remove` that raises leaves the mapping
unchanged. -/
def applyOp (cash : DictZ) : LOp → DictZ
  | LOp.add d c => addInt d c cash
  | LOp.remove d c => (removeInt d c cash).getD cash

/-- Run a sequence of ledger calls. -/
def applyOps (cash : DictZ) (ops : List LOp) : DictZ := ops.foldl applyOp cash

end Pro

/-! ## The greedy change makers of the simpler machine variants -/

/-- The inner `while amount >= d and <avail> > 0` loop shared by the greedy
change makers: from `(amount, avail)` it returns the final amount, the
final available count and the number of pieces taken.  Each iteration
consumes one piece, so the recursion is structural on `avail`. -/
def takeLoop (d : Nat) : Nat → Nat → Nat × Nat × Nat
  | amount, 0 => (amount, 0, 0)
  | amount, avail + 1 =>
    if d ≤ amount then
      let r := takeLoop d (amount - d) avail
      (r.1, r.2.1, r.2.2 + 1)
    else (amount, avail + 1, 0)

namespace G08

/-- `CashManager.DENOMINATIONS` of the three greedy files. -/
def DENOMINATIONS : List Nat := [1000, 500, 100, 50, 20, 10, 5, 2, 1]

/-- `CashManager.make_change`, shared verbatim by src/FileAndMEM_Class.py
(lines 54-67), src/Vending_Machine_G08.py (lines 80-98) and
src/cmd_G08_TP.py (lines 49-59): greedy largest-first that mutates
`self.cash` in place while scanning (`self.cash[d] -= 1` inside the loop),
and returns the result dict, or `None` when a residual amount remains —
without undoing the mutations.  The per-iteration writes are accumulated
by `takeLoop` and written back once per denomination; a denomination whose
loop never runs performs no write. -/
def makeChange (amount : Nat) (cash : Dict) : Option Dict × Dict :=
  let s := DENOMINATIONS.foldl
    (fun (s : Nat × Dict × Dict) d =>
      let t := takeLoop d s.1 (dget s.2.1 d)
      if 0 < t.2.2 then
        (t.1, dset s.2.1 d t.2.1, dset s.2.2 d (dget s.2.2 d + t.2.2))
      else s)
    (amount, cash, [])
  if s.1 = 0 then (some s.2.2, s.2.1) else (none, s.2.1)

end G08

namespace VM

/-- `CashMgr.COINS ++ CashMgr.NOTES` (VendingMachine.py lines 30-32). -/
def DENOMINATIONS : List Nat := [1, 2, 5, 10] ++ [20, 50, 100, 500, 1000]

/-- `CashMgr._calc_change` (VendingMachine.py lines 47-68): greedy
largest-first (`sorted(self.DENOMINATIONS, reverse=True)`) over a working
copy `temp_cash`; when the residual is zero the result is returned and,
unless simulating, the combination is deducted from `self.cash`. -/
def calcChange (amt : Nat) (cash : Dict) (simulate : Bool) : Option Dict × Dict :=
  let s := ((DENOMINATIONS.insertionSort (· ≤ ·)).reverse).foldl
    (fun (s : Nat × Dict × Dict) denom =>
      let t := takeLoop denom s.1 (dget s.2.1 denom)
      if 0 < t.2.2 then (t.1, dset s.2.1 denom t.2.1, dset s.2.2 denom t.2.2)
      else s)
    (amt, cash, [])
  if s.1 = 0 then
    (some s.2.2,
      if simulate then cash
      else s.2.2.foldl (fun c p => dset c p.1 (dget c p.1 - p.2)) cash)
  else (none, cash)

/-- `CashMgr.can_change` (lines 41-42). -/
def canChange (amt : Nat) (cash : Dict) : Bool := (calcChange amt cash true).1.isSome

/-- `CashMgr.make_change` (lines 44-45). -/
def makeChange (amt : Nat) (cash : Dict) : Option Dict × Dict := calcChange amt cash false

/-- `CashMgr.add` (lines 37-39): note the strict `count > 0` guard. -/
def add (denom count : Nat) (cash : Dict) : Dict :=
  if denom ∈ DENOMINATIONS ∧ 0 < count then dset cash denom (dget cash denom + count)
  else cash

/-- The insert loop of `process_purchase` (lines 226-227). -/
def addAll (cash inserted : Dict) : Dict :=
  inserted.foldl (fun c p => add p.1 p.2 c) cash

/-- `VendingMachine.process_purchase` (VendingMachine.py lines 207-239).
The feasibility check `can_change(change_amount)` runs against the ledger
BEFORE the inserted money is added; the actual `make_change` then runs on
the ledger WITH the inserted money.  On a failed post-insert `make_change`
the sale still completes (`change_detail` may be `None`). -/
def processPurchase (price stock : Nat) (cash : Dict) (inputs : List Inp) : PRes :=
  if ¬ 0 < stock then PRes.ret false stock cash
  else
    match Pro.collectPayment price 0 [] inputs with
    | none => PRes.waiting
    | some none => PRes.ret false stock cash
    | some (some (total, inserted)) =>
      let changeAmount := total - price
      if 0 < changeAmount ∧ ¬ canChange changeAmount cash then
        PRes.ret false stock cash
      else
        let cash1 := addAll cash inserted
        let r := if 0 < changeAmount then makeChange changeAmount cash1
          else (some [], cash1)
        PRes.ret true (Pro.buyOne stock) r.2

end VM

namespace PM

/-- `CashMgr.COINS ++ CashMgr.NOTES` (projectmidterm.py lines 25-27). -/
def DENOMINATIONS : List Nat := [1, 2, 5, 10] ++ [20, 50, 100, 500, 1000]

/-- `CashMgr._calc_change` (projectmidterm.py lines 42-58): greedy
largest-first taking `min(amt // denom, temp_cash.get(denom, 0))` pieces at
once; on success and not simulating, the commit loop runs
`self.cash[denom] = max(0, self.cash[denom] - count)` (at type `Nat` the
truncated subtraction already equals that clamped value). -/
def calcChange (amt : Nat) (cash : Dict) (simulate : Bool) : Option Dict × Dict :=
  let s := ((DENOMINATIONS.insertionSort (· ≤ ·)).reverse).foldl
    (fun (s : Nat × Dict × Dict) denom =>
      let count := min (s.1 / denom) (dget s.2.1 denom)
      if 0 < count then
        (s.1 - denom * count, dset s.2.1 denom (dget s.2.1 denom - count),
          dset s.2.2 denom count)
      else s)
    (amt, cash, [])
  if s.1 = 0 then
    (some s.2.2,
      if simulate then cash
      else s.2.2.foldl (fun c p => dset c p.1 (max 0 (dget c p.1 - p.2))) cash)
  else (none, cash)

/-- `CashMgr.can_change` (lines 36-37). -/
def canChange (amt : Nat) (cash : Dict) : Bool := (calcChange amt cash true).1.isSome

/-- `CashMgr.make_change` (lines 39-40). -/
def makeChange (amt : Nat) (cash : Dict) : Option Dict × Dict := calcChange amt cash false

/-- `CashMgr.add` (lines 32-34). -/
def add (denom count : Nat) (cash : Dict) : Dict :=
  if denom ∈ DENOMINATIONS ∧ 0 ≤ count then dset cash denom (dget cash denom + count)
  else cash

/-- The insert loop of `process_purchase` (lines 230-231). -/
def addAll (cash inserted : Dict) : Dict :=
  inserted.foldl (fun c p => add p.1 p.2 c) cash

/-- `VendingMachine.process_purchase` (projectmidterm.py lines 199-244).
Like VendingMachine.py, the feasibility check `can_change(change_amount)`
runs against the ledger BEFORE the inserted money is added. -/
def processPurchase (price stock : Nat) (cash : Dict) (inputs : List Inp) : PRes :=
  if ¬ 0 < stock then PRes.ret false stock cash
  else
    match Pro.collectPayment price 0 [] inputs with
    | none => PRes.waiting
    | some none => PRes.ret false stock cash
    | some (some (total, inserted)) =>
      let changeAmount := total - price
      if 0 < changeAmount ∧ ¬ canChange changeAmount cash then
        PRes.ret false stock cash
      else
        let cash1 := addAll cash inserted
        let r := if 0 < changeAmount then makeChange changeAmount cash1
          else (some [], cash1)
        PRes.ret true (Pro.buyOne stock) r.2

end PM

@[simp] theorem dget_nil (d : Nat) : dget [] d = 0 := rfl

theorem dget_cons (p : Nat × Nat) (l : Dict) (d : Nat) :
    dget (p :: l) d = if p.1 = d then p.2 else dget l d := rfl

@[simp] theorem keys_nil : keys [] = [] := rfl

@[simp] theorem keys_cons (p : Nat × Nat) (l : Dict) : keys (p :: l) = p.1 :: keys l := rfl

theorem keys_append (l l2 : Dict) : keys (l ++ l2) = keys l ++ keys l2 := by
  simp [keys]

theorem dval_cons (p : Nat × Nat) (l : Dict) : dval (p :: l) = p.1 * p.2 + dval l := rfl

theorem dpieces_cons (p : Nat × Nat) (l : Dict) : dpieces (p :: l) = p.2 + dpieces l := rfl

theorem dget_of_not_mem {l : Dict} {d : Nat} (h : d ∉ keys l) : dget l d = 0 := by
  induction l with
  | nil => rfl
  | cons p rest ih =>
    simp only [keys_cons, List.mem_cons, not_or] at h
    rw [dget_cons, if_neg (fun he => h.1 he.symm), ih h.2]

theorem mem_keys_of_dget_pos {l : Dict} {d : Nat} (h : 0 < dget l d) : d ∈ keys l := by
  by_contra hc
  rw [dget_of_not_mem hc] at h
  exact Nat.lt_irrefl 0 h

theorem mapset_cons (p : Nat × Nat) (l : Dict) (k v : Nat) :
    mapset (p :: l) k v = (if p.1 = k then (k, v) else p) :: mapset l k v := rfl

theorem keys_mapset (l : Dict) (k v : Nat) : keys (mapset l k v) = keys l := by
  induction l with
  | nil => rfl
  | cons p rest ih =>
    rw [mapset_cons]
    by_cases hp : p.1 = k
    · simp [if_pos hp, hp, ih]
    · simp [if_neg hp, ih]

theorem mapset_eq_self {l : Dict} {k : Nat} (v : Nat) (h : k ∉ keys l) :
    mapset l k v = l := by
  induction l with
  | nil => rfl
  | cons p rest ih =>
    simp only [keys_cons, List.mem_cons, not_or] at h
    rw [mapset_cons, if_neg (fun he => h.1 he.symm), ih h.2]

theorem dget_mapset_self {l : Dict} {k : Nat} (v : Nat) (h : k ∈ keys l) :
    dget (mapset l k v) k = v := by
  induction l with
  | nil => simp at h
  | cons p rest ih =>
    rw [mapset_cons]
    by_cases hp : p.1 = k
    · simp [if_pos hp, dget_cons]
    · rw [if_neg hp, dget_cons, if_neg hp]
      simp only [keys_cons, List.mem_cons] at h
      rcases h with h1 | h2
      · exact absurd h1.symm hp
      · exact ih h2

theorem dget_mapset_ne (l : Dict) {k d : Nat} (v : Nat) (h : d ≠ k) :
    dget (mapset l k v) d = dget l d := by
  induction l with
  | nil => rfl
  | cons p rest ih =>
    rw [mapset_cons]
    by_cases hp : p.1 = k
    · rw [if_pos hp, dget_cons, dget_cons, if_neg (fun he : (k, v).1 = d => h he.symm),
        if_neg (by rw [hp]; exact fun he => h he.symm)]
      exact ih
    · rw [if_neg hp, dget_cons, dget_cons]
      split
      · rfl
      · exact ih

theorem dget_append (l l2 : Dict) (d : Nat) :
    dget (l ++ l2) d = if d ∈ keys l then dget l d else dget l2 d := by
  induction l with
  | nil => simp
  | cons p rest ih =>
    rw [List.cons_append, dget_cons, dget_cons]
    by_cases hp : p.1 = d
    · rw [if_pos hp, if_pos (by simp [keys_cons, hp.symm]), if_pos hp]
    · rw [if_neg hp, if_neg hp, ih]
      simp only [keys_cons, List.mem_cons]
      by_cases hd : d ∈ keys rest
      · rw [if_pos hd, if_pos (Or.inr hd)]
      · rw [if_neg hd, if_neg (by rintro (h1 | h2); exact hp h1.symm; exact hd h2)]

theorem dget_dset_self (l : Dict) (k v : Nat) : dget (dset l k v) k = v := by
  unfold dset
  split
  · exact dget_mapset_self v (by assumption)
  · rename_i h
    rw [dget_append, if_neg h, dget_cons, if_pos rfl]

theorem dget_dset_ne (l : Dict) {k d : Nat} (v : Nat) (h : d ≠ k) :
    dget (dset l k v) d = dget l d := by
  unfold dset
  split
  · exact dget_mapset_ne l v h
  · rename_i hnm
    rw [dget_append]
    split
    · rfl
    · rename_i hd
      rw [dget_cons, if_neg (fun he : k = d => h he.symm), dget_nil, dget_of_not_mem hd]

theorem keys_dset (l : Dict) (k v : Nat) :
    keys (dset l k v) = if k ∈ keys l then keys l else keys l ++ [k] := by
  unfold dset
  split
  · exact keys_mapset l k v
  · rw [keys_append, keys_cons, keys_nil]

theorem keys_nodup_dset {l : Dict} (k v : Nat) (h : (keys l).Nodup) :
    (keys (dset l k v)).Nodup := by
  rw [keys_dset]
  split
  · exact h
  · rename_i hnm
    simpa [List.nodup_append] using ⟨h, hnm⟩

theorem mem_keys_dset {l : Dict} {k v d : Nat} :
    d ∈ keys (dset l k v) ↔ d ∈ keys l ∨ d = k := by
  rw [keys_dset]
  split
  · rename_i h
    constructor
    · exact fun hd => Or.inl hd
    · rintro (hd | rfl)
      · exact hd
      · exact h
  · simp

@[simp] theorem dget_bump_self (l : Dict) (k : Nat) : dget (bump l k) k = dget l k + 1 :=
  dget_dset_self l k _

theorem dget_bump_ne (l : Dict) {k d : Nat} (h : d ≠ k) : dget (bump l k) d = dget l d :=
  dget_dset_ne l _ h

theorem keys_nodup_bump {l : Dict} (k : Nat) (h : (keys l).Nodup) :
    (keys (bump l k)).Nodup := keys_nodup_dset k _ h

/-- Peeling one (different-key) head entry off a `bump`. -/
theorem bump_cons_ne {p : Nat × Nat} {rest : Dict} {k : Nat} (h : p.1 ≠ k) :
    bump (p :: rest) k = p :: bump rest k := by
  unfold bump
  have hg : dget (p :: rest) k = dget rest k := by
    rw [dget_cons, if_neg h]
  rw [hg]
  unfold dset
  by_cases hm : k ∈ keys rest
  · rw [if_pos (by simp [keys_cons]; exact Or.inr hm), if_pos hm, mapset_cons, if_neg h]
  · rw [if_neg (by simp [keys_cons]; exact ⟨fun he => h he.symm, hm⟩), if_neg hm,
      List.cons_append]

theorem dval_bump {l : Dict} (k : Nat) (h : (keys l).Nodup) :
    dval (bump l k) = dval l + k := by
  induction l with
  | nil => simp [bump, dset, mapset, dget, dval, keys]
  | cons p rest ih =>
    simp only [keys_cons, List.nodup_cons] at h
    by_cases hp : p.1 = k
    · have hk : k ∉ keys rest := hp ▸ h.1
      have hmem : k ∈ keys (p :: rest) := by simp [keys_cons, hp]
      have hg : dget (p :: rest) k = p.2 := by rw [dget_cons, if_pos hp]
      unfold bump dset
      rw [if_pos hmem, hg, mapset_cons, if_pos hp, mapset_eq_self _ hk,
        dval_cons, dval_cons, hp]
      ring
    · rw [bump_cons_ne hp, dval_cons, dval_cons, ih h.2]
      omega

theorem dpieces_bump {l : Dict} (k : Nat) (h : (keys l).Nodup) :
    dpieces (bump l k) = dpieces l + 1 := by
  induction l with
  | nil => simp [bump, dset, mapset, dget, dpieces, keys]
  | cons p rest ih =>
    simp only [keys_cons, List.nodup_cons] at h
    by_cases hp : p.1 = k
    · have hk : k ∉ keys rest := hp ▸ h.1
      have hmem : k ∈ keys (p :: rest) := by simp [keys_cons, hp]
      have hg : dget (p :: rest) k = p.2 := by rw [dget_cons, if_pos hp]
      unfold bump dset
      rw [if_pos hmem, hg, mapset_cons, if_pos hp, mapset_eq_self _ hk,
        dpieces_cons, dpieces_cons]
      omega
    · rw [bump_cons_ne hp, dpieces_cons, dpieces_cons, ih h.2]
      omega

/-- A single entry never exceeds the total dict value. -/
theorem dval_ge (l : Dict) (k : Nat) : k * dget l k ≤ dval l := by
  induction l with
  | nil => simp [dval]
  | cons p rest ih =>
    rw [dget_cons, dval_cons]
    split
    · rename_i hp
      rw [← hp]
      exact Nat.le_add_right _ _
    · calc k * dget rest k ≤ dval rest := ih
        _ ≤ p.1 * p.2 + dval rest := Nat.le_add_left _ _

theorem dval_eq_zero {l : Dict} (hn : (keys l).Nodup) (h : ∀ d, dget l d = 0) :
    dval l = 0 := by
  induction l with
  | nil => rfl
  | cons p rest ih =>
    simp only [keys_cons, List.nodup_cons] at hn
    have hp : p.2 = 0 := by
      have := h p.1
      rwa [dget_cons, if_pos rfl] at this
    have hrest : ∀ d, dget rest d = 0 := by
      intro d
      by_cases hd : p.1 = d
      · subst hd
        exact dget_of_not_mem hn.1
      · have := h d
        rwa [dget_cons, if_neg hd] at this
    rw [dval_cons, hp, Nat.mul_zero, Nat.zero_add]
    exact ih hn.2 hrest

theorem mapset_mapset (l : Dict) (k v w : Nat) :
    mapset (mapset l k v) k w = mapset l k w := by
  unfold mapset
  rw [List.map_map]
  apply List.map_congr_left
  intro p _
  by_cases hp : p.1 = k
  · simp [Function.comp, hp]
  · simp [Function.comp, hp]

theorem dset_dset_same (l : Dict) (k v w : Nat) :
    dset (dset l k v) k w = dset l k w := by
  unfold dset
  by_cases h : k ∈ keys l
  · rw [if_pos h, if_pos (by rw [keys_mapset]; exact h), if_pos h, mapset_mapset]
  · rw [if_neg h, if_pos (by rw [keys_append, keys_cons, keys_nil]; simp), if_neg h]
    unfold mapset
    rw [List.map_append]
    have h1 : List.map (fun p => if p.1 = k then (k, w) else p) l = l :=
      mapset_eq_self w h
    have h2 : List.map (fun p => if p.1 = k then (k, w) else p) [(k, v)] = [(k, w)] := by
      simp
    rw [h1, h2]

theorem dset_dget_self {l : Dict} {k : Nat} (hn : (keys l).Nodup) (hm : k ∈ keys l) :
    dset l k (dget l k) = l := by
  unfold dset
  rw [if_pos hm]
  induction l with
  | nil => simp at hm
  | cons p rest ih =>
    simp only [keys_cons, List.nodup_cons] at hn
    rw [mapset_cons]
    by_cases hp : p.1 = k
    · have hk : k ∉ keys rest := hp ▸ hn.1
      rw [if_pos hp, dget_cons, if_pos hp, mapset_eq_self _ hk]
      have : (k, p.2) = p := by
        rw [← hp]
      rw [this]
    · rw [if_neg hp, dget_cons, if_neg hp]
      simp only [keys_cons, List.mem_cons] at hm
      rcases hm with h1 | h2
      · exact absurd h1.symm hp
      · rw [ih hn.2 h2]

theorem bump_cdec {l : Dict} {k : Nat} (hn : (keys l).Nodup) (h : 0 < dget l k) :
    bump (cdec l k) k = l := by
  unfold bump cdec
  rw [dget_dset_self, dset_dset_same, Nat.sub_add_cancel h,
    dset_dget_self hn (mem_keys_of_dget_pos h)]

theorem keys_nodup_cdec {l : Dict} (k : Nat) (h : (keys l).Nodup) :
    (keys (cdec l k)).Nodup := keys_nodup_dset k _ h

theorem dval_cdec {l : Dict} {k : Nat} (hn : (keys l).Nodup) (h : 0 < dget l k) :
    dval l = dval (cdec l k) + k := by
  conv_lhs => rw [← bump_cdec hn h]
  exact dval_bump k (keys_nodup_cdec k hn)

theorem dpieces_cdec {l : Dict} {k : Nat} (hn : (keys l).Nodup) (h : 0 < dget l k) :
    dpieces l = dpieces (cdec l k) + 1 := by
  conv_lhs => rw [← bump_cdec hn h]
  exact dpieces_bump k (keys_nodup_cdec k hn)

theorem dget_cdec_self (l : Dict) (k : Nat) : dget (cdec l k) k = dget l k - 1 :=
  dget_dset_self l k _

theorem dget_cdec_ne (l : Dict) {k d : Nat} (h : d ≠ k) : dget (cdec l k) d = dget l d :=
  dget_dset_ne l _ h

theorem dpBody_apply_ne (denom : Nat) (dp : Nat → Option Dict) (a x : Nat)
    (hx : x ≠ a) : dpBody denom dp a x = dp x := by
  rcases h1 : dp (a - denom) with _ | prev
  · simp [dpBody, h1]
  · rcases h2 : dp a with _ | cur
    · simp [dpBody, h1, h2, if_neg hx]
    · by_cases hlt : dpieces (bump prev denom) < dpieces cur
      · simp [dpBody, h1, h2, hlt, if_neg hx]
      · simp [dpBody, h1, h2, hlt]

theorem dpBody_apply_self (denom : Nat) (dp : Nat → Option Dict) (a : Nat) :
    dpBody denom dp a a = relax dp denom a := by
  rcases h1 : dp (a - denom) with _ | prev
  · simp [dpBody, relax, h1]
  · rcases h2 : dp a with _ | cur
    · simp [dpBody, relax, h1, h2]
    · by_cases hlt : dpieces (bump prev denom) < dpieces cur
      · simp [dpBody, relax, h1, h2, hlt]
      · simp [dpBody, relax, h1, h2, hlt]

theorem foldl_dpBody_eq (denom : Nat) (L : List Nat)
    (hL : L.Pairwise (· > ·)) (dp : Nat → Option Dict) :
    ∀ x, (L.foldl (dpBody denom) dp) x =
      if x ∈ L then relax dp denom x else dp x := by
  induction L generalizing dp with
  | nil => intro x; simp
  | cons a rest ih =>
    intro x
    rw [List.pairwise_cons] at hL
    have hlt : ∀ y ∈ rest, y < a := hL.1
    have hbody_lt : ∀ y, y < a → dpBody denom dp a y = dp y :=
      fun y hy => dpBody_apply_ne denom dp a y (Nat.ne_of_lt hy)
    rw [List.foldl_cons, ih hL.2 (dpBody denom dp a)]
    by_cases hx : x ∈ rest
    · rw [if_pos hx, if_pos (List.mem_cons_of_mem a hx)]
      have hxa : x < a := hlt x hx
      have e1 : dpBody denom dp a x = dp x := hbody_lt x hxa
      have e2 : dpBody denom dp a (x - denom) = dp (x - denom) :=
        hbody_lt (x - denom) (lt_of_le_of_lt (Nat.sub_le x denom) hxa)
      unfold relax
      rw [e1, e2]
    · rw [if_neg hx]
      by_cases hxa : x = a
      · subst hxa
        rw [if_pos (List.mem_cons_self x rest), dpBody_apply_self]
      · rw [if_neg (by simp [List.mem_cons]; exact ⟨hxa, hx⟩),
          dpBody_apply_ne denom dp a x hxa]

theorem mem_descRange {amt denom x : Nat} :
    x ∈ descRange amt denom ↔ denom ≤ x ∧ x ≤ amt := by
  unfold descRange
  rw [List.mem_reverse, List.mem_range'_1]
  omega

theorem pairwise_descRange (amt denom : Nat) :
    (descRange amt denom).Pairwise (· > ·) := by
  unfold descRange
  rw [List.pairwise_reverse]
  exact List.pairwise_lt_range' denom (amt + 1 - denom)

theorem dpPass_apply (amt denom : Nat) (dp : Nat → Option Dict) (x : Nat) :
    dpPass amt denom dp x =
      if denom ≤ x ∧ x ≤ amt then relax dp denom x else dp x := by
  unfold dpPass
  rw [foldl_dpBody_eq denom _ (pairwise_descRange amt denom) dp x]
  by_cases h : x ∈ descRange amt denom
  · rw [if_pos h, if_pos (mem_descRange.mp h)]
  · rw [if_neg h, if_neg (fun hc => h (mem_descRange.mpr hc))]

theorem WithinSupply_mono {c : Dict} {proc proc' : Nat → Nat}
    (h : ∀ x, proc x ≤ proc' x) (hc : WithinSupply c proc) : WithinSupply c proc' :=
  fun d => (hc d).trans (h d)

theorem le_addCnt (proc : Nat → Nat) (d k x : Nat) : proc x ≤ addCnt proc d k x := by
  unfold addCnt
  split <;> omega

theorem DPInv_congr {amt : Nat} {proc proc' : Nat → Nat} {dp : Nat → Option Dict}
    (he : ∀ x, proc x = proc' x) (h : DPInv amt proc dp) : DPInv amt proc' dp := by
  constructor
  · intro a ha c hc
    obtain ⟨h1, h2, h3⟩ := h.1 a ha c hc
    exact ⟨h1, h2, fun d => (he d) ▸ h3 d⟩
  · intro a ha c' hn hv hb
    exact h.2 a ha c' hn hv (fun d => (he d) ▸ hb d)

theorem relax_of_cur_some {dp : Nat → Option Dict} (denom : Nat) {a : Nat} {c0 : Dict}
    (h : dp a = some c0) :
    ∃ c, relax dp denom a = some c ∧ dpieces c ≤ dpieces c0 := by
  rcases h1 : dp (a - denom) with _ | prev
  · exact ⟨c0, by simp [relax, h1, h], le_refl _⟩
  · by_cases hlt : dpieces (bump prev denom) < dpieces c0
    · exact ⟨bump prev denom, by simp [relax, h1, h, hlt], Nat.le_of_lt hlt⟩
    · exact ⟨c0, by simp [relax, h1, h, hlt], le_refl _⟩

theorem relax_of_prev_some {dp : Nat → Option Dict} {denom a : Nat} {prev : Dict}
    (h : dp (a - denom) = some prev) :
    ∃ c, relax dp denom a = some c ∧ dpieces c ≤ dpieces (bump prev denom) := by
  rcases h2 : dp a with _ | cur
  · exact ⟨bump prev denom, by simp [relax, h, h2], le_refl _⟩
  · by_cases hlt : dpieces (bump prev denom) < dpieces cur
    · exact ⟨bump prev denom, by simp [relax, h, h2, hlt], le_refl _⟩
    · exact ⟨cur, by simp [relax, h, h2, hlt], Nat.le_of_not_lt hlt⟩

theorem relax_cases {dp : Nat → Option Dict} {denom a : Nat} {c : Dict}
    (h : relax dp denom a = some c) :
    dp a = some c ∨ ∃ prev, dp (a - denom) = some prev ∧ c = bump prev denom := by
  rcases h1 : dp (a - denom) with _ | prev
  · rw [relax, h1] at h
    exact Or.inl h
  · rcases h2 : dp a with _ | cur
    · simp only [relax, h1, h2] at h
      exact Or.inr ⟨prev, rfl, by injection h with h; exact h.symm⟩
    · simp only [relax, h1, h2] at h
      by_cases hlt : dpieces (bump prev denom) < dpieces cur
      · rw [if_pos hlt] at h
        exact Or.inr ⟨prev, rfl, by injection h with h; exact h.symm⟩
      · rw [if_neg hlt] at h
        exact Or.inl h

theorem dpPass_preserves {amt denom : Nat} (hd : 1 ≤ denom)
    {proc : Nat → Nat} {dp : Nat → Option Dict} (h : DPInv amt proc dp) :
    DPInv amt (addCnt proc denom 1) (dpPass amt denom dp) := by
  constructor
  · intro a ha c hc
    rw [dpPass_apply] at hc
    by_cases hr : denom ≤ a ∧ a ≤ amt
    · rw [if_pos hr] at hc
      rcases relax_cases hc with hcur | ⟨prev, hprev, rfl⟩
      · obtain ⟨h1, h2, h3⟩ := h.1 a ha c hcur
        exact ⟨h1, h2, WithinSupply_mono (le_addCnt proc denom 1) h3⟩
      · obtain ⟨h1, h2, h3⟩ := h.1 (a - denom) (le_trans (Nat.sub_le a denom) ha)
          prev hprev
        refine ⟨?_, keys_nodup_bump denom h2, ?_⟩
        · rw [dval_bump denom h2, h1, Nat.sub_add_cancel hr.1]
        · intro x
          by_cases hx : x = denom
          · subst hx
            rw [dget_bump_self]
            unfold addCnt
            rw [if_pos rfl]
            exact Nat.add_le_add_right (h3 x) 1
          · rw [dget_bump_ne prev hx]
            unfold addCnt
            rw [if_neg hx]
            exact h3 x
    · rw [if_neg hr] at hc
      obtain ⟨h1, h2, h3⟩ := h.1 a ha c hc
      exact ⟨h1, h2, WithinSupply_mono (le_addCnt proc denom 1) h3⟩
  · intro a ha c' hn hv hb
    by_cases hr : denom ≤ a ∧ a ≤ amt
    · by_cases hle : dget c' denom ≤ proc denom
      · have hb' : WithinSupply c' proc := by
          intro x
          by_cases hx : x = denom
          · subst hx; exact hle
          · have := hb x
            unfold addCnt at this
            rwa [if_neg hx] at this
        obtain ⟨c0, hc0, hp0⟩ := h.2 a ha c' hn hv hb'
        obtain ⟨c, hc, hp⟩ := relax_of_cur_some denom hc0
        refine ⟨c, ?_, hp.trans hp0⟩
        rw [dpPass_apply, if_pos hr, hc]
      · have heq : dget c' denom = proc denom + 1 := by
          have := hb denom
          unfold addCnt at this
          rw [if_pos rfl] at this
          omega
        have hpos : 0 < dget c' denom := by omega
        have hda : denom ≤ a := by
          have h1 : denom * dget c' denom ≤ dval c' := dval_ge c' denom
          have h2 : denom * 1 ≤ denom * dget c' denom :=
            Nat.mul_le_mul_left denom hpos
          omega
        have hvc : dval c' = dval (cdec c' denom) + denom := dval_cdec hn hpos
        have hpc : dpieces c' = dpieces (cdec c' denom) + 1 := dpieces_cdec hn hpos
        have hnc : (keys (cdec c' denom)).Nodup := keys_nodup_cdec denom hn
        have hbc : WithinSupply (cdec c' denom) proc := by
          intro x
          by_cases hx : x = denom
          · subst hx
            rw [dget_cdec_self]
            omega
          · rw [dget_cdec_ne c' hx]
            have := hb x
            unfold addCnt at this
            rwa [if_neg hx] at this
        obtain ⟨c0, hc0, hp0⟩ := h.2 (a - denom) (le_trans (Nat.sub_le a denom) ha)
          (cdec c' denom) hnc (by omega) hbc
        have hn0 : (keys c0).Nodup :=
          (h.1 (a - denom) (le_trans (Nat.sub_le a denom) ha) c0 hc0).2.1
        obtain ⟨c, hc, hp⟩ := relax_of_prev_some hc0
        refine ⟨c, ?_, ?_⟩
        · rw [dpPass_apply, if_pos hr, hc]
        · rw [dpieces_bump denom hn0] at hp
          omega
    · have ha' : a < denom := by omega
      have hle : dget c' denom ≤ proc denom := by
        by_contra hcon
        have h1 : denom * dget c' denom ≤ dval c' := dval_ge c' denom
        have heq : dget c' denom = proc denom + 1 := by
          have := hb denom
          unfold addCnt at this
          rw [if_pos rfl] at this
          omega
        have h2 : denom * 1 ≤ denom * dget c' denom :=
          Nat.mul_le_mul_left denom (by omega)
        omega
      have hb' : WithinSupply c' proc := by
        intro x
        by_cases hx : x = denom
        · subst hx; exact hle
        · have := hb x
          unfold addCnt at this
          rwa [if_neg hx] at this
      obtain ⟨c0, hc0, hp0⟩ := h.2 a ha c' hn hv hb'
      refine ⟨c0, ?_, hp0⟩
      rw [dpPass_apply, if_neg hr, hc0]

theorem dpPasses_preserves {amt denom : Nat} (hd : 1 ≤ denom) (k : Nat)
    {proc : Nat → Nat} {dp : Nat → Option Dict} (h : DPInv amt proc dp) :
    DPInv amt (addCnt proc denom k) ((dpPass amt denom)^[k] dp) := by
  induction k generalizing proc dp with
  | zero =>
    rw [Function.iterate_zero_apply]
    exact DPInv_congr (fun x => by unfold addCnt; split <;> omega) h
  | succ n ih =>
    rw [Function.iterate_succ_apply]
    have h1 := ih (dpPass_preserves hd h)
    exact DPInv_congr (fun x => by unfold addCnt; split <;> omega) h1

theorem foldl_passes (amt : Nat) (available : Dict) :
    ∀ (ds : List Nat), (∀ d ∈ ds, 1 ≤ d) →
    ∀ {proc : Nat → Nat} {dp : Nat → Option Dict}, DPInv amt proc dp →
    DPInv amt
      (ds.foldl (fun p d => addCnt p d (max 0 (dget available d))) proc)
      (ds.foldl
        (fun dp denom => (dpPass amt denom)^[max 0 (dget available denom)] dp) dp) := by
  intro ds
  induction ds with
  | nil => intro _ proc dp h; exact h
  | cons d rest ih =>
    intro hpos proc dp h
    rw [List.foldl_cons, List.foldl_cons]
    exact ih (fun x hx => hpos x (List.mem_cons_of_mem d hx))
      (dpPasses_preserves (hpos d (List.mem_cons_self d rest)) _ h)

theorem foldl_addCnt_apply (f : Nat → Nat) (ds : List Nat) :
    ∀ (proc : Nat → Nat) (x : Nat),
      ds.foldl (fun p d => addCnt p d (f d)) proc x = proc x + ds.count x * f x := by
  induction ds with
  | nil => intro proc x; simp
  | cons d rest ih =>
    intro proc x
    rw [List.foldl_cons, ih]
    unfold addCnt
    by_cases hx : x = d
    · subst hx
      rw [if_pos rfl, List.count_cons_self]
      ring
    · rw [if_neg hx, List.count_cons_of_ne (by simpa using hx)]

theorem sortedKeys_perm (available : Dict) :
    (sortedKeys available).Perm (keys available) :=
  List.perm_insertionSort _ _

theorem dp_table_inv (amt : Nat) (available : Dict)
    (hn : (keys available).Nodup) (hpos : ∀ d ∈ keys available, 1 ≤ d) :
    DPInv amt (fun x => dget available x)
      ((sortedKeys available).foldl
        (fun dp denom => (dpPass amt denom)^[max 0 (dget available denom)] dp)
        (fun a => if a = 0 then some [] else none)) := by
  have h0 : DPInv amt (fun _ => 0) (fun a => if a = 0 then some [] else none) := by
    constructor
    · intro a ha c hc
      by_cases h : a = 0
      · subst h
        have hc' : some ([] : Dict) = some c := hc
        injection hc' with hc'
        subst hc'
        exact ⟨rfl, List.nodup_nil, fun d => le_refl 0⟩
      · have hc' : (if a = 0 then some ([] : Dict) else none) = some c := hc
        rw [if_neg h] at hc'
        exact absurd hc' (Option.noConfusion)
    · intro a ha c' hcn hcv hcb
      have hz : ∀ d, dget c' d = 0 := fun d => Nat.le_zero.mp (hcb d)
      have ha0 : a = 0 := by rw [← hcv]; exact dval_eq_zero hcn hz
      subst ha0
      exact ⟨[], rfl, Nat.zero_le _⟩
  have hsp : ∀ d ∈ sortedKeys available, 1 ≤ d := by
    intro d hd
    exact hpos d ((sortedKeys_perm available).mem_iff.mp hd)
  have h1 := foldl_passes amt available (sortedKeys available) hsp h0
  refine DPInv_congr ?_ h1
  intro x
  rw [foldl_addCnt_apply]
  rw [(sortedKeys_perm available).count_eq]
  by_cases hx : x ∈ keys available
  · rw [List.count_eq_one_of_mem hn hx]
    simp
  · rw [List.count_eq_zero_of_not_mem hx, dget_of_not_mem hx]
    simp

/-- Soundness of the change engine: any returned combination sums exactly to
the requested amount, has dict-shaped keys, and never exceeds the supply. -/
theorem bmic_sound {amt : Nat} {available c : Dict}
    (hn : (keys available).Nodup) (hpos : ∀ d ∈ keys available, 1 ≤ d)
    (h : boundedMinItemsChange amt available = some c) :
    dval c = amt ∧ (keys c).Nodup ∧ ∀ d, dget c d ≤ dget available d := by
  unfold boundedMinItemsChange at h
  by_cases hz : amt = 0
  · rw [if_pos hz] at h
    injection h with h
    subst h
    subst hz
    exact ⟨rfl, List.nodup_nil, fun d => Nat.zero_le _⟩
  · rw [if_neg hz] at h
    exact (dp_table_inv amt available hn hpos).1 amt (le_refl amt) c h

/-- Completeness and minimality of the change engine: whenever some
within-supply combination for `amt` exists, the engine returns one that is
piece-wise minimal. -/
theorem bmic_complete_min {amt : Nat} {available c' : Dict}
    (hn : (keys available).Nodup) (hpos : ∀ d ∈ keys available, 1 ≤ d)
    (hcn : (keys c').Nodup) (hcv : dval c' = amt)
    (hcb : ∀ d, dget c' d ≤ dget available d) :
    ∃ c, boundedMinItemsChange amt available = some c ∧ dpieces c ≤ dpieces c' := by
  unfold boundedMinItemsChange
  by_cases hz : amt = 0
  · rw [if_pos hz]
    exact ⟨[], rfl, Nat.zero_le _⟩
  · rw [if_neg hz]
    exact (dp_table_inv amt available hn hpos).2 amt (le_refl amt) c' hcn hcv hcb

theorem mem_dset_cases {l : Dict} {k v : Nat} {q : Nat × Nat} (h : q ∈ dset l k v) :
    q ∈ l ∨ q = (k, v) := by
  unfold dset at h
  split at h
  · unfold mapset at h
    rw [List.mem_map] at h
    obtain ⟨p, hp, he⟩ := h
    by_cases hpk : p.1 = k
    · rw [if_pos hpk] at he
      exact Or.inr he.symm
    · rw [if_neg hpk] at he
      exact Or.inl (he ▸ hp)
  · rw [List.mem_append] at h
    rcases h with h | h
    · exact Or.inl h
    · rw [List.mem_singleton] at h
      exact Or.inr h

namespace Pro

theorem collectPayment_sound :
    ∀ (inputs : List Inp) (price total : Nat) (ins : Dict),
    total = dval ins → (keys ins).Nodup →
    (∀ p ∈ ins, p.1 ∈ DENOMINATIONS ∧ 0 < p.2) →
    ∀ {t' : Nat} {ins' : Dict},
    collectPayment price total ins inputs = some (some (t', ins')) →
    t' = dval ins' ∧ price ≤ t' ∧ (keys ins').Nodup ∧
      (∀ p ∈ ins', p.1 ∈ DENOMINATIONS ∧ 0 < p.2) := by
  intro inputs
  induction inputs with
  | nil =>
    intro price total ins hv hn hp t' ins' h
    rw [collectPayment] at h
    split at h
    · rename_i hle
      simp only [Option.some.injEq, Prod.mk.injEq] at h
      obtain ⟨rfl, rfl⟩ := h
      exact ⟨hv, hle, hn, hp⟩
    · exact absurd h (Option.noConfusion)
  | cons i rest ih =>
    intro price total ins hv hn hp t' ins' h
    cases i with
    | cancel =>
      rw [collectPayment] at h
      split at h
      · rename_i hle
        simp only [Option.some.injEq, Prod.mk.injEq] at h
        obtain ⟨rfl, rfl⟩ := h
        exact ⟨hv, hle, hn, hp⟩
      · simp at h
    | num n =>
      rw [collectPayment] at h
      split at h
      · rename_i hle
        simp only [Option.some.injEq, Prod.mk.injEq] at h
        obtain ⟨rfl, rfl⟩ := h
        exact ⟨hv, hle, hn, hp⟩
      · by_cases hm : n ∈ DENOMINATIONS
        · rw [if_pos hm] at h
          refine ih price (total + n) (bump ins n) ?_ (keys_nodup_bump n hn) ?_ h
          · rw [dval_bump n hn, hv]
          · intro p hpm
            rcases mem_dset_cases hpm with hin | heq
            · exact hp p hin
            · rw [heq]
              exact ⟨hm, Nat.succ_pos _⟩
        · rw [if_neg hm] at h
          exact ih price total ins hv hn hp h
    | junk =>
      rw [collectPayment] at h
      split at h
      · rename_i hle
        simp only [Option.some.injEq, Prod.mk.injEq] at h
        obtain ⟨rfl, rfl⟩ := h
        exact ⟨hv, hle, hn, hp⟩
      · exact ih price total ins hv hn hp h

theorem dget_add (cash : Dict) {denom : Nat} (count : Nat)
    (h : denom ∈ DENOMINATIONS) (d : Nat) :
    dget (add denom count cash) d =
      if d = denom then dget cash d + count else dget cash d := by
  unfold add
  rw [if_pos ⟨h, Nat.zero_le count⟩]
  by_cases hd : d = denom
  · subst hd
    rw [if_pos rfl, dget_dset_self]
  · rw [if_neg hd, dget_dset_ne cash _ hd]

theorem keys_nodup_add (denom count : Nat) {cash : Dict}
    (h : (keys cash).Nodup) : (keys (add denom count cash)).Nodup := by
  unfold add
  split
  · exact keys_nodup_dset denom _ h
  · exact h

theorem dget_addAll :
    ∀ (ins cash : Dict), (∀ p ∈ ins, p.1 ∈ DENOMINATIONS) → (keys ins).Nodup →
    ∀ d, dget (addAll cash ins) d = dget cash d + dget ins d := by
  intro ins
  induction ins with
  | nil => intro cash _ _ d; simp [addAll]
  | cons q rest ih =>
    intro cash hmem hn d
    simp only [keys_cons, List.nodup_cons] at hn
    have hq : q.1 ∈ DENOMINATIONS := hmem q (List.mem_cons_self q rest)
    have step : addAll cash (q :: rest) = addAll (add q.1 q.2 cash) rest := by
      unfold addAll
      rw [List.foldl_cons]
    rw [step, ih (add q.1 q.2 cash)
      (fun p hp => hmem p (List.mem_cons_of_mem q hp)) hn.2 d]
    rw [dget_add cash q.2 hq d, dget_cons]
    by_cases hd : d = q.1
    · subst hd
      rw [if_pos rfl, if_pos rfl, dget_of_not_mem hn.1]
      omega
    · rw [if_neg hd, if_neg (fun he => hd he.symm)]

theorem keys_nodup_addAll :
    ∀ (ins cash : Dict), (keys cash).Nodup → (keys (addAll cash ins)).Nodup := by
  intro ins
  induction ins with
  | nil => intro cash h; exact h
  | cons q rest ih =>
    intro cash h
    have step : addAll cash (q :: rest) = addAll (add q.1 q.2 cash) rest := by
      unfold addAll
      rw [List.foldl_cons]
    rw [step]
    exact ih _ (keys_nodup_add q.1 q.2 h)

theorem removeAll_ok :
    ∀ (combo cash : Dict), (keys combo).Nodup →
    (∀ d, dget combo d ≤ dget cash d) →
    ∃ cash', removeAll cash combo = some cash' ∧
      ∀ d, dget cash' d = dget cash d - dget combo d := by
  intro combo
  induction combo with
  | nil =>
    intro cash _ _
    exact ⟨cash, rfl, fun d => by rw [dget_nil, Nat.sub_zero]⟩
  | cons q rest ih =>
    intro cash hn hb
    simp only [keys_cons, List.nodup_cons] at hn
    have hqv : dget (q :: rest) q.1 = q.2 := by rw [dget_cons, if_pos rfl]
    have hble : q.2 ≤ dget cash q.1 := hqv ▸ hb q.1
    have hrem : remove q.1 q.2 cash =
        some (dset cash q.1 (dget cash q.1 - q.2)) := by
      unfold remove
      rw [if_neg (Nat.not_lt.mpr hble)]
    have hrest : ∀ d, dget rest d ≤ dget (dset cash q.1 (dget cash q.1 - q.2)) d := by
      intro d
      by_cases hd : d = q.1
      · subst hd
        rw [dget_of_not_mem hn.1]
        exact Nat.zero_le _
      · rw [dget_dset_ne cash _ hd]
        have := hb d
        rwa [dget_cons, if_neg (fun he => hd he.symm)] at this
    obtain ⟨cash', hc, he⟩ := ih _ hn.2 hrest
    refine ⟨cash', ?_, ?_⟩
    · show removeAll cash (⟨q.1, q.2⟩ :: rest) = some cash'
      rw [removeAll, hrem]
      exact hc
    · intro d
      rw [he d, dget_cons]
      by_cases hd : d = q.1
      · subst hd
        rw [if_pos rfl, dget_dset_self, dget_of_not_mem hn.1, Nat.sub_zero]
      · rw [if_neg (fun he' => hd he'.symm), dget_dset_ne cash _ hd]

theorem denominations_pos : ∀ d ∈ DENOMINATIONS, 1 ≤ d := by decide

theorem mem_keys_add {cash : Dict} {denom count d : Nat}
    (h : d ∈ keys (add denom count cash)) : d ∈ keys cash ∨ d = denom := by
  unfold add at h
  split at h
  · exact mem_keys_dset.mp h
  · exact Or.inl h

theorem mem_keys_addAll :
    ∀ (ins cash : Dict) (d : Nat), d ∈ keys (addAll cash ins) →
      d ∈ keys cash ∨ d ∈ keys ins := by
  intro ins
  induction ins with
  | nil => intro cash d h; exact Or.inl h
  | cons q rest ih =>
    intro cash d h
    have step : addAll cash (q :: rest) = addAll (add q.1 q.2 cash) rest := by
      unfold addAll
      rw [List.foldl_cons]
    rw [step] at h
    rcases ih (add q.1 q.2 cash) d h with h1 | h2
    · rcases mem_keys_add h1 with h3 | h4
      · exact Or.inl h3
      · exact Or.inr (by rw [keys_cons, h4]; exact List.mem_cons_self _ _)
    · exact Or.inr (by rw [keys_cons]; exact List.mem_cons_of_mem _ h2)

/-- All outcomes of `make_change` on a well-formed ledger: either the
infeasible `None`, or a committed combination that sums to `amt`, is
non-empty whenever `amt > 0`, and was exactly deducted from the ledger.
In particular no `ValueError` can escape. -/
theorem makeChange_cases (amt : Nat) {cash1 : Dict} (hn1 : (keys cash1).Nodup)
    (hpos1 : ∀ d ∈ keys cash1, 1 ≤ d) :
    makeChange amt cash1 = some none ∨
    ∃ combo cash2, makeChange amt cash1 = some (some (combo, cash2)) ∧
      dval combo = amt ∧ (0 < amt → combo ≠ []) ∧
      ∀ d, dget cash2 d + dget combo d = dget cash1 d := by
  unfold makeChange
  by_cases hz : amt = 0
  · right
    subst hz
    rw [if_pos rfl]
    exact ⟨[], cash1, rfl, rfl, fun h => absurd h (by omega),
      fun d => by rw [dget_nil, Nat.add_zero]⟩
  · rw [if_neg hz]
    rcases hbm : boundedMinItemsChange amt cash1 with _ | combo
    · left
      rfl
    · right
      have hspec := bmic_sound hn1 hpos1 hbm
      obtain ⟨cash2, hra, hre⟩ := removeAll_ok combo cash1 hspec.2.1 hspec.2.2
      refine ⟨combo, cash2, ?_, hspec.1, ?_, ?_⟩
      · simp only [hra]
      · intro _ hnil
        rw [hnil] at hspec
        exact hz (hspec.1.symm)
      · intro d
        rw [hre d]
        exact Nat.sub_add_cancel (hspec.2.2 d)

/-- Transactional specification of `process_purchase`: no exception ever
escapes; every `False` return leaves stock and cash untouched (the cash is
even the same list); every `True` return decrements the stock by one and
leaves the ledger equal to its old value plus the inserted money minus a
dispensed change combination that sums exactly to the overpayment. -/
theorem processPurchase_spec (price stock : Nat) (cash : Dict) (inputs : List Inp)
    (hn : (keys cash).Nodup) (hkpos : ∀ d ∈ keys cash, 1 ≤ d) :
    processPurchase price stock cash inputs ≠ PRes.exn ∧
    (∀ s' c', processPurchase price stock cash inputs = PRes.ret false s' c' →
      s' = stock ∧ c' = cash) ∧
    (∀ s' c', processPurchase price stock cash inputs = PRes.ret true s' c' →
      0 < stock ∧ s' = stock - 1 ∧
      ∃ total ins chg,
        collectPayment price 0 [] inputs = some (some (total, ins)) ∧
        price ≤ total ∧ dval chg = total - price ∧
        ∀ d, dget c' d + dget chg d = dget cash d + dget ins d) := by
  by_cases hs : 0 < stock
  case neg =>
    have hres : processPurchase price stock cash inputs = PRes.ret false stock cash := by
      unfold processPurchase
      rw [if_pos hs]
    refine ⟨?_, ?_, ?_⟩
    · rw [hres]
      exact fun h => PRes.noConfusion h
    · intro s' c' h
      rw [hres] at h
      injection h with _ h2 h3
      exact ⟨h2.symm, h3.symm⟩
    · intro s' c' h
      rw [hres] at h
      injection h with h1
      exact absurd h1 (by decide)
  case pos =>
    rcases hcp : collectPayment price 0 [] inputs with _ | ro
    · have hres : processPurchase price stock cash inputs = PRes.waiting := by
        unfold processPurchase
        rw [if_neg (not_not_intro hs)]
        simp only [hcp]
      refine ⟨?_, ?_, ?_⟩
      · rw [hres]
        exact fun h => PRes.noConfusion h
      · intro s' c' h
        rw [hres] at h
        exact PRes.noConfusion h
      · intro s' c' h
        rw [hres] at h
        exact PRes.noConfusion h
    · rcases ro with _ | ⟨total, ins⟩
      · have hres : processPurchase price stock cash inputs =
            PRes.ret false stock cash := by
          unfold processPurchase
          rw [if_neg (not_not_intro hs)]
          simp only [hcp]
        refine ⟨?_, ?_, ?_⟩
        · rw [hres]
          exact fun h => PRes.noConfusion h
        · intro s' c' h
          rw [hres] at h
          injection h with _ h2 h3
          exact ⟨h2.symm, h3.symm⟩
        · intro s' c' h
          rw [hres] at h
          injection h with h1
          exact absurd h1 (by decide)
      · obtain ⟨hv, hle, hinn, hinp⟩ := collectPayment_sound inputs price 0 []
          rfl List.nodup_nil (by intro p hp; exact absurd hp (List.not_mem_nil p)) hcp
        have hmem : ∀ p ∈ ins, p.1 ∈ DENOMINATIONS := fun p hp => (hinp p hp).1
        have hca : ∀ d, dget (addAll cash ins) d = dget cash d + dget ins d :=
          dget_addAll ins cash hmem hinn
        have hn1 : (keys (addAll cash ins)).Nodup := keys_nodup_addAll ins cash hn
        have hpos1 : ∀ d ∈ keys (addAll cash ins), 1 ≤ d := by
          intro d hd
          rcases mem_keys_addAll ins cash d hd with h1 | h2
          · exact hkpos d h1
          · rw [keys, List.mem_map] at h2
            obtain ⟨p, hp, rfl⟩ := h2
            exact denominations_pos p.1 (hmem p hp)
        by_cases hch : 0 < total - price
        · rcases makeChange_cases (total - price) hn1 hpos1 with
            hmc | ⟨combo, cash2, hmc, hcv, hcne, hcd⟩
          · have hres : processPurchase price stock cash inputs =
                PRes.ret false stock cash := by
              unfold processPurchase
              rw [if_neg (not_not_intro hs)]
              simp only [hcp]
              rw [if_pos hch]
              simp only [hmc]
              rfl
            refine ⟨?_, ?_, ?_⟩
            · rw [hres]
              exact fun h => PRes.noConfusion h
            · intro s' c' h
              rw [hres] at h
              injection h with _ h2 h3
              exact ⟨h2.symm, h3.symm⟩
            · intro s' c' h
              rw [hres] at h
              injection h with h1
              exact absurd h1 (by decide)
          · have hcne' : combo ≠ [] := hcne hch
            have hres : processPurchase price stock cash inputs =
                PRes.ret true (buyOne stock) cash2 := by
              unfold processPurchase
              rw [if_neg (not_not_intro hs)]
              simp only [hcp]
              rw [if_pos hch]
              simp only [hmc]
              rw [if_neg hcne']
            refine ⟨?_, ?_, ?_⟩
            · rw [hres]
              exact fun h => PRes.noConfusion h
            · intro s' c' h
              rw [hres] at h
              injection h with h1
              exact absurd h1 (by decide)
            · intro s' c' h
              rw [hres] at h
              injection h with _ h2 h3
              refine ⟨hs, ?_, total, ins, combo, rfl, hle, hcv, ?_⟩
              · rw [← h2]
                unfold buyOne
                rw [if_pos hs]
              · intro d
                rw [← h3, hcd d, hca d]
        · have hres : processPurchase price stock cash inputs =
              PRes.ret true (buyOne stock) (addAll cash ins) := by
            unfold processPurchase
            rw [if_neg (not_not_intro hs)]
            simp only [hcp]
            rw [if_neg hch]
          refine ⟨?_, ?_, ?_⟩
          · rw [hres]
            exact fun h => PRes.noConfusion h
          · intro s' c' h
            rw [hres] at h
            injection h with h1
            exact absurd h1 (by decide)
          · intro s' c' h
            rw [hres] at h
            injection h with _ h2 h3
            refine ⟨hs, ?_, total, ins, [], rfl, hle, ?_, ?_⟩
            · rw [← h2]
              unfold buyOne
              rw [if_pos hs]
            · rw [show dval [] = 0 from rfl]
              omega
            · intro d
              rw [← h3, dget_nil, Nat.add_zero, hca d]

end Pro

theorem zkeys_cons (p : Int × Int) (l : DictZ) : zkeys (p :: l) = p.1 :: zkeys l := rfl

theorem zget_of_not_mem {l : DictZ} {d : Int} (h : d ∉ zkeys l) : zget l d = 0 := by
  induction l with
  | nil => rfl
  | cons p rest ih =>
    simp only [zkeys, List.map_cons, List.mem_cons, not_or] at h
    rw [zget, if_neg (fun he => h.1 he.symm)]
    exact ih (by simpa [zkeys] using h.2)

theorem zget_zmapset_self {l : DictZ} {k : Int} (v : Int) (h : k ∈ zkeys l) :
    zget (zmapset l k v) k = v := by
  induction l with
  | nil => simp [zkeys] at h
  | cons p rest ih =>
    show zget ((if p.1 = k then (k, v) else p) :: zmapset rest k v) k = v
    by_cases hp : p.1 = k
    · rw [if_pos hp, zget, if_pos rfl]
    · rw [if_neg hp, zget, if_neg hp]
      simp only [zkeys, List.map_cons, List.mem_cons] at h
      rcases h with h1 | h2
      · exact absurd h1.symm hp
      · exact ih (by simpa [zkeys] using h2)

theorem zget_zmapset_ne (l : DictZ) {k d : Int} (v : Int) (h : d ≠ k) :
    zget (zmapset l k v) d = zget l d := by
  induction l with
  | nil => rfl
  | cons p rest ih =>
    show zget ((if p.1 = k then (k, v) else p) :: zmapset rest k v) d = _
    by_cases hp : p.1 = k
    · rw [if_pos hp, zget, if_neg (fun he : (k, v).1 = d => h he.symm), zget,
        if_neg (by rw [hp]; exact fun he => h he.symm)]
      exact ih
    · rw [if_neg hp, zget, zget]
      split
      · rfl
      · exact ih

theorem zget_zappend (l l2 : DictZ) (d : Int) :
    zget (l ++ l2) d = if d ∈ zkeys l then zget l d else zget l2 d := by
  induction l with
  | nil => simp [zkeys]
  | cons p rest ih =>
    rw [List.cons_append, zget, zget]
    by_cases hp : p.1 = d
    · rw [if_pos hp, if_pos (by simp [zkeys, hp.symm]), if_pos hp]
    · rw [if_neg hp, if_neg hp, ih]
      simp only [zkeys_cons, List.mem_cons]
      by_cases hd : d ∈ zkeys rest
      · rw [if_pos hd, if_pos (Or.inr hd)]
      · rw [if_neg hd, if_neg (by rintro (h1 | h2); exact hp h1.symm; exact hd h2)]

theorem zget_zset_self (l : DictZ) (k v : Int) : zget (zset l k v) k = v := by
  unfold zset
  split
  · exact zget_zmapset_self v (by assumption)
  · rename_i h
    rw [zget_zappend, if_neg h, zget, if_pos rfl]

theorem zget_zset_ne (l : DictZ) {k d : Int} (v : Int) (h : d ≠ k) :
    zget (zset l k v) d = zget l d := by
  unfold zset
  split
  · exact zget_zmapset_ne l v h
  · rename_i hnm
    rw [zget_zappend]
    split
    · rfl
    · rename_i hd
      rw [zget, if_neg (fun he : k = d => h he.symm), zget, zget_of_not_mem hd]

namespace Pro

theorem addInt_nonneg {cash : DictZ} (hc : ∀ d, 0 ≤ zget cash d)
    (denom count : Int) : ∀ d, 0 ≤ zget (addInt denom count cash) d := by
  intro d
  unfold addInt
  split
  · rename_i h
    by_cases hd : d = denom
    · subst hd
      rw [zget_zset_self]
      have := hc d
      omega
    · rw [zget_zset_ne cash _ hd]
      exact hc d
  · exact hc d

theorem removeInt_nonneg {cash : DictZ} (hc : ∀ d, 0 ≤ zget cash d)
    (denom count : Int) : ∀ d, 0 ≤ zget ((removeInt denom count cash).getD cash) d := by
  intro d
  unfold removeInt
  by_cases h1 : count < 0
  · rw [if_pos h1]
    exact hc d
  · rw [if_neg h1]
    by_cases h2 : count > zget cash denom
    · rw [if_pos h2]
      exact hc d
    · rw [if_neg h2]
      show 0 ≤ zget (zset cash denom (zget cash denom - count)) d
      by_cases hd : d = denom
      · subst hd
        rw [zget_zset_self]
        omega
      · rw [zget_zset_ne cash _ hd]
        exact hc d

theorem applyOps_nonneg :
    ∀ (ops : List LOp) (cash : DictZ), (∀ d, 0 ≤ zget cash d) →
    ∀ d, 0 ≤ zget (applyOps cash ops) d := by
  intro ops
  induction ops with
  | nil => intro cash hc d; exact hc d
  | cons op rest ih =>
    intro cash hc d
    have step : applyOps cash (op :: rest) = applyOps (applyOp cash op) rest := by
      unfold applyOps
      rw [List.foldl_cons]
    rw [step]
    refine ih (applyOp cash op) ?_ d
    cases op with
    | add a b => exact addInt_nonneg hc a b
    | remove a b => exact removeInt_nonneg hc a b

theorem removeInt_fail {denom count : Int} {cash : DictZ}
    (h : count < 0 ∨ zget cash denom < count) :
    removeInt denom count cash = none := by
  unfold removeInt
  rcases h with h | h
  · rw [if_pos h]
  · by_cases h1 : count < 0
    · rw [if_pos h1]
    · rw [if_neg h1, if_pos h]

end Pro

/-! ## Claims -/

/-- C1: Purchase atomicity of `VendingMachine.process_purchase` in
src/VendingMachinePro.py.  For every price, stock, well-formed cash dict
(distinct positive denomination keys) and input sequence: no exception
escapes; every `False` return leaves the stock and the cash dict exactly
unchanged; every `True` return decrements the stock by exactly one and
leaves the ledger equal to its pre-call value plus the inserted money
minus a dispensed change combination summing exactly to the
overpayment — never a mixed state. -/
theorem c1_purchase_atomicity (price stock : Nat) (cash : Dict) (inputs : List Inp)
    (hn : (keys cash).Nodup) (hkpos : ∀ d ∈ keys cash, 0 < d) :
    Pro.processPurchase price stock cash inputs ≠ PRes.exn ∧
    (∀ s' c', Pro.processPurchase price stock cash inputs = PRes.ret false s' c' →
      s' = stock ∧ c' = cash) ∧
    (∀ s' c', Pro.processPurchase price stock cash inputs = PRes.ret true s' c' →
      0 < stock ∧ s' = stock - 1 ∧
      ∃ total ins chg,
        Pro.collectPayment price 0 [] inputs = some (some (total, ins)) ∧
        price ≤ total ∧ dval chg = total - price ∧
        ∀ d, dget c' d + dget chg d = dget cash d + dget ins d) :=
  Pro.processPurchase_spec price stock cash inputs hn hkpos

/-- Witness for C1, at the spec scenario: price 15, one unit of stock,
ledger `{10:1, 5:3, 1:5}`, payer inserts one 20-baht note. -/
theorem c1_purchase_atomicity_witness :
    ((keys [(10, 1), (5, 3), (1, 5)]).Nodup ∧
      (∀ d ∈ keys [(10, 1), (5, 3), (1, 5)], 0 < d)) ∧
    (Pro.processPurchase 15 1 [(10, 1), (5, 3), (1, 5)] [Inp.num 20] ≠ PRes.exn ∧
      (∀ s' c', Pro.processPurchase 15 1 [(10, 1), (5, 3), (1, 5)] [Inp.num 20] =
          PRes.ret false s' c' → s' = 1 ∧ c' = [(10, 1), (5, 3), (1, 5)]) ∧
      (∀ s' c', Pro.processPurchase 15 1 [(10, 1), (5, 3), (1, 5)] [Inp.num 20] =
          PRes.ret true s' c' →
        0 < 1 ∧ s' = 1 - 1 ∧
        ∃ total ins chg,
          Pro.collectPayment 15 0 [] [Inp.num 20] = some (some (total, ins)) ∧
          15 ≤ total ∧ dval chg = total - 15 ∧
          ∀ d, dget c' d + dget chg d =
            dget [(10, 1), (5, 3), (1, 5)] d + dget ins d)) :=
  ⟨⟨by decide, by decide⟩,
    c1_purchase_atomicity 15 1 [(10, 1), (5, 3), (1, 5)] [Inp.num 20]
      (by decide) (by decide)⟩

/-- C2: Change exactness of `CashMgr._bounded_min_items_change` in
src/VendingMachinePro.py: whenever the engine returns a combination for a
well-formed availability dict (distinct positive denomination keys), the
combination's value-sum equals the requested amount and every entry stays
within the available count. -/
theorem c2_change_exactness (amt : Nat) (available c : Dict)
    (hn : (keys available).Nodup) (hpos : ∀ d ∈ keys available, 0 < d)
    (h : boundedMinItemsChange amt available = some c) :
    dval c = amt ∧ ∀ d, dget c d ≤ dget available d := by
  obtain ⟨h1, _, h3⟩ := bmic_sound hn hpos h
  exact ⟨h1, h3⟩

/-- Witness for C2 at amount 5 and availability `{10:1, 5:3, 1:5, 20:1}`. -/
theorem c2_change_exactness_witness :
    ((keys [(10, 1), (5, 3), (1, 5), (20, 1)]).Nodup ∧
      (∀ d ∈ keys [(10, 1), (5, 3), (1, 5), (20, 1)], 0 < d) ∧
      boundedMinItemsChange 5 [(10, 1), (5, 3), (1, 5), (20, 1)] = some [(5, 1)]) ∧
    (dval [(5, 1)] = 5 ∧
      ∀ d, dget [(5, 1)] d ≤ dget [(10, 1), (5, 3), (1, 5), (20, 1)] d) :=
  ⟨⟨by decide, by decide, by decide⟩,
    c2_change_exactness 5 [(10, 1), (5, 3), (1, 5), (20, 1)] [(5, 1)]
      (by decide) (by decide) (by decide)⟩

/-- C3: Feasibility soundness of `CashMgr._bounded_min_items_change` in
src/VendingMachinePro.py: if any combination bounded by the availability
sums exactly to the amount, the engine returns some valid combination
rather than `None`. -/
theorem c3_feasibility_soundness (amt : Nat) (available c' : Dict)
    (hn : (keys available).Nodup) (hpos : ∀ d ∈ keys available, 0 < d)
    (hcn : (keys c').Nodup) (hcv : dval c' = amt)
    (hcb : ∀ d, dget c' d ≤ dget available d) :
    ∃ c, boundedMinItemsChange amt available = some c ∧
      dval c = amt ∧ ∀ d, dget c d ≤ dget available d := by
  obtain ⟨c, hc, _⟩ := bmic_complete_min hn hpos hcn hcv hcb
  obtain ⟨h1, _, h3⟩ := bmic_sound hn hpos hc
  exact ⟨c, hc, h1, h3⟩

/-- Witness for C3: amount 5 with availability `{5:2, 10:1}` and the
feasible combination `{5:1}`. -/
theorem c3_feasibility_soundness_witness :
    ((keys [(5, 2), (10, 1)]).Nodup ∧ (∀ d ∈ keys [(5, 2), (10, 1)], 0 < d) ∧
      (keys [(5, 1)]).Nodup ∧ dval [(5, 1)] = 5 ∧
      (∀ d, dget [(5, 1)] d ≤ dget [(5, 2), (10, 1)] d)) ∧
    (∃ c, boundedMinItemsChange 5 [(5, 2), (10, 1)] = some c ∧
      dval c = 5 ∧ ∀ d, dget c d ≤ dget [(5, 2), (10, 1)] d) := by
  have hb : ∀ d, dget [(5, 1)] d ≤ dget [(5, 2), (10, 1)] d := by
    intro d
    by_cases h : (5 : Nat) = d
    · rw [← h]
      decide
    · rw [dget_cons, if_neg h, dget_nil]
      exact Nat.zero_le _
  exact ⟨⟨by decide, by decide, by decide, by decide, hb⟩,
    c3_feasibility_soundness 5 [(5, 2), (10, 1)] [(5, 1)]
      (by decide) (by decide) (by decide) (by decide) hb⟩

/-- C4: Minimal piece count of `CashMgr._bounded_min_items_change` in
src/VendingMachinePro.py: a returned combination uses no more pieces than
any combination bounded by the availability that sums to the same amount;
and at amount 5 with availability `{10:1, 5:3, 1:5, 20:1}` the engine
returns exactly `{5:1}`. -/
theorem c4_minimal_piece_count :
    (∀ (amt : Nat) (available c c' : Dict),
      (keys available).Nodup → (∀ d ∈ keys available, 0 < d) →
      boundedMinItemsChange amt available = some c →
      (keys c').Nodup → dval c' = amt → (∀ d, dget c' d ≤ dget available d) →
      dpieces c ≤ dpieces c') ∧
    boundedMinItemsChange 5 [(10, 1), (5, 3), (1, 5), (20, 1)] = some [(5, 1)] := by
  constructor
  · intro amt av c c' hn hpos hc hcn hcv hcb
    obtain ⟨c0, hc0, hp0⟩ := bmic_complete_min hn hpos hcn hcv hcb
    rw [hc] at hc0
    injection hc0 with he
    rw [he]
    exact hp0
  · decide

/-- Witness for C4: against the 5-piece alternative `{1:5}`, the returned
`{5:1}` uses fewer pieces. -/
theorem c4_minimal_piece_count_witness :
    ((keys [(10, 1), (5, 3), (1, 5), (20, 1)]).Nodup ∧
      (∀ d ∈ keys [(10, 1), (5, 3), (1, 5), (20, 1)], 0 < d) ∧
      boundedMinItemsChange 5 [(10, 1), (5, 3), (1, 5), (20, 1)] = some [(5, 1)] ∧
      (keys [(1, 5)]).Nodup ∧ dval [(1, 5)] = 5 ∧
      (∀ d, dget [(1, 5)] d ≤ dget [(10, 1), (5, 3), (1, 5), (20, 1)] d)) ∧
    dpieces [(5, 1)] ≤ dpieces [(1, 5)] := by
  have hb : ∀ d, dget [(1, 5)] d ≤ dget [(10, 1), (5, 3), (1, 5), (20, 1)] d := by
    intro d
    by_cases h : (1 : Nat) = d
    · rw [← h]
      decide
    · rw [dget_cons, if_neg h, dget_nil]
      exact Nat.zero_le _
  exact ⟨⟨by decide, by decide, by decide, by decide, by decide, hb⟩,
    c4_minimal_piece_count.1 5 [(10, 1), (5, 3), (1, 5), (20, 1)] [(5, 1)] [(1, 5)]
      (by decide) (by decide) (by decide) (by decide) (by decide) hb⟩

/-- C5 (code bug): the greedy `CashManager.make_change` shared by
src/FileAndMEM_Class.py, src/Vending_Machine_G08.py and src/cmd_G08_TP.py
mutates `self.cash` while scanning and does not undo the mutation when it
returns `None`.  At amount 3 with cash `{2:1}` it consumes the 2-baht
coin, cannot finish, and returns `None` with the cash left at `{2:0}` —
not the unchanged `{2:1}` the claim requires. -/
theorem c5_make_change_mutates_on_failure :
    G08.makeChange 3 [(2, 1)] = (none, [(2, 0)]) ∧ [(2, 0)] ≠ ([(2, 1)] : Dict) := by
  decide

/-- C6 (code bug): in src/VendingMachine.py and src/projectmidterm.py the
feasibility check `can_change(change_amount)` runs against the ledger
before the inserted money is added.  With an empty ledger, price 15 and
inserted `{5:2, 10:1}` (total 20, change 5), the change is payable from
ledger-plus-inserted (`{5:2, 10:1}`, shown by both `can_change`s returning
`true` on it), yet both purchases fail with "no change available". -/
theorem c6_change_check_ignores_inserted :
    VM.processPurchase 15 1 [] [Inp.num 5, Inp.num 5, Inp.num 10] =
      PRes.ret false 1 [] ∧
    PM.processPurchase 15 1 [] [Inp.num 5, Inp.num 5, Inp.num 10] =
      PRes.ret false 1 [] ∧
    Pro.collectPayment 15 0 [] [Inp.num 5, Inp.num 5, Inp.num 10] =
      some (some (20, [(5, 2), (10, 1)])) ∧
    VM.addAll [] [(5, 2), (10, 1)] = [(5, 2), (10, 1)] ∧
    PM.addAll [] [(5, 2), (10, 1)] = [(5, 2), (10, 1)] ∧
    VM.canChange 5 [(5, 2), (10, 1)] = true ∧
    PM.canChange 5 [(5, 2), (10, 1)] = true := by
  decide

/-- C7: Ledger non-negativity for `CashMgr.add`/`CashMgr.remove` in
src/VendingMachinePro.py at arbitrary `Int` arguments: any sequence of
calls starting from an all-non-negative mapping keeps every stored count
non-negative, and any `remove` with a negative count or a count beyond
the stored one raises (returns `none`) — both checks precede the single
mutating assignment, so nothing is mutated. -/
theorem c7_ledger_nonneg :
    (∀ (ops : List Pro.LOp) (cash : DictZ), (∀ d, 0 ≤ zget cash d) →
      ∀ d, 0 ≤ zget (Pro.applyOps cash ops) d) ∧
    (∀ (denom count : Int) (cash : DictZ),
      (count < 0 ∨ zget cash denom < count) →
      Pro.removeInt denom count cash = none) :=
  ⟨Pro.applyOps_nonneg, fun _ _ _ h => Pro.removeInt_fail h⟩

/-- Witness for C7: a concrete call sequence with an in-bounds add/remove,
an over-large remove and a negative-denomination remove, from the empty
ledger. -/
theorem c7_ledger_nonneg_witness :
    (∀ d, 0 ≤ zget [] d) ∧
    (∀ d, 0 ≤ zget (Pro.applyOps []
      [Pro.LOp.add 5 3, Pro.LOp.remove 5 2, Pro.LOp.remove 5 9,
        Pro.LOp.add 3 1, Pro.LOp.remove (-2) 1]) d) ∧
    Pro.removeInt 5 9 [(5, 1)] = none :=
  ⟨fun d => le_refl 0,
    c7_ledger_nonneg.1
      [Pro.LOp.add 5 3, Pro.LOp.remove 5 2, Pro.LOp.remove 5 9,
        Pro.LOp.add 3 1, Pro.LOp.remove (-2) 1] [] (fun d => le_refl 0),
    c7_ledger_nonneg.2 5 9 [(5, 1)] (Or.inr (by decide))⟩

/-- C8: Snapshot/restore round-trip for `CashMgr` in
src/VendingMachinePro.py: `restore(snapshot())` is a no-op and
`restore(s)` followed by `snapshot()` reproduces `s` exactly.  (In this
value-level embedding `dict(...)`-copying is the identity, so the claimed
independence of the returned copy from later mutations of the live ledger
holds by construction.) -/
theorem c8_snapshot_restore_roundtrip :
    ∀ (cash s : Dict), Pro.restore (Pro.snapshot cash) cash = cash ∧
      Pro.snapshot (Pro.restore s cash) = s :=
  fun _ _ => ⟨rfl, rfl⟩

/-- C9 counterexample: `CashMgr.add` in src/VendingMachinePro.py called
with the unknown denomination 3 raises nothing and silently leaves the
mapping unchanged (the source `add` has no raise path at all),
contradicting the claim that it fails with an InvalidDenomination error. -/
theorem c9_counterexample : Pro.addInt 3 1 [(1, 2)] = [(1, 2)] := by decide

/-- C9 amended: for every denomination outside the legal catalog (and any
count), `CashMgr.add` silently does nothing — the cash mapping is
returned unchanged and no error is raised. -/
theorem c9_add_unknown_silent (denom count : Int) (cash : DictZ)
    (h : denom ∉ Pro.DENOMINATIONSZ) : Pro.addInt denom count cash = cash := by
  unfold Pro.addInt
  rw [if_neg (fun hc => h hc.1)]

/-- Witness for C9's amended claim at denomination 3. -/
theorem c9_add_unknown_silent_witness :
    (3 : Int) ∉ Pro.DENOMINATIONSZ ∧ Pro.addInt 3 1 [(1, 2)] = [(1, 2)] :=
  ⟨by decide, c9_add_unknown_silent 3 1 [(1, 2)] (by decide)⟩

/-- C10: internal consistency of `collect_payment` (VendingMachinePro.py
and VendingMachine.py): every non-cancelled return carries a total equal
to the value-sum of the inserted dict, at least the price, with every
inserted key a legal denomination at a strictly positive count; and a
cancel while the total is still short returns the `(None, None)` pair
(the function reads and writes no machine state at all — it is modelled
as a pure function of the input stream). -/
theorem c10_collect_payment_consistent :
    (∀ (price : Nat) (inputs : List Inp) (total : Nat) (ins : Dict),
      Pro.collectPayment price 0 [] inputs = some (some (total, ins)) →
      total = dval ins ∧ price ≤ total ∧
        ∀ p ∈ ins, p.1 ∈ Pro.DENOMINATIONS ∧ 0 < p.2) ∧
    (∀ (price total : Nat) (ins : Dict) (rest : List Inp), total < price →
      Pro.collectPayment price total ins (Inp.cancel :: rest) = some none) := by
  constructor
  · intro price inputs total ins h
    obtain ⟨h1, h2, _, h4⟩ := Pro.collectPayment_sound inputs price 0 [] rfl
      List.nodup_nil (fun p hp => absurd hp (List.not_mem_nil p)) h
    exact ⟨h1, h2, h4⟩
  · intro price total ins rest h
    rw [Pro.collectPayment, if_neg (Nat.not_le.mpr h)]

/-- Witness for C10: price 15 with a single 20-baht note, and a cancel on
the first prompt. -/
theorem c10_collect_payment_consistent_witness :
    Pro.collectPayment 15 0 [] [Inp.num 20] = some (some (20, [(20, 1)])) ∧
    (20 = dval [(20, 1)] ∧ 15 ≤ 20 ∧
      ∀ p ∈ ([(20, 1)] : Dict), p.1 ∈ Pro.DENOMINATIONS ∧ 0 < p.2) ∧
    (0 < 15 ∧ Pro.collectPayment 15 0 [] [Inp.cancel] = some none) :=
  ⟨by decide,
    c10_collect_payment_consistent.1 15 [Inp.num 20] 20 [(20, 1)] (by decide),
    ⟨by decide, c10_collect_payment_consistent.2 15 0 [] [] (by decide)⟩⟩

end Codeverse
